import Mathlib

/-!
Verification of the memory-region module of the async-rdma repository
(`src/memory_region.rs`): the region hierarchy, the disjoint-range
allocator (`slice`, `alloc`), the remote-descriptor export (`remote_mr`)
and the drop protocol.

Modelling conventions:
* `usize` and `u32` values are modelled as `Nat`.
* `Range<usize>` is `RangeN` with fields `start` and `stop` (the source
  field `end` is a Lean keyword).
* The `Mutex<Vec<Range<usize>>>` guarding a region's occupied ranges is
  modelled by passing the protected list explicitly; each critical
  section of the source corresponds to one function below, so lock-level
  interleavings can be expressed by composing those functions.
* A Rust panic (`assert!`, `unwrap`, `todo!`, the `panic!` inside
  `inner_mr`) is modelled by `Option.none` or by an explicit effect
  constructor, never by an ordinary return value.
* `Vec::sort_by(|a, b| a.start.cmp(&b.start))` is a stable sort by start
  offset; `sortByStart` below is a stable insertion sort computing the
  same list.
-/

namespace AsyncRdma

/-- Half-open byte range; `Range<usize>` of the source, with `stop` for the
source's `end` field. -/
structure RangeN where
  start : Nat
  stop : Nat
  deriving DecidableEq

/-- Comparator of the source's `sort_by(|a, b| a.start.cmp(&b.start))`:
ascending order by start offset. -/
def startLE (a b : RangeN) : Prop := a.start ≤ b.start

instance : DecidableRel startLE := fun a b =>
  inferInstanceAs (Decidable (a.start ≤ b.start))

/-- Disjointness of two half-open ranges, written the way the overlap check
in `slice` writes it: one range ends before the other starts. -/
def RangeN.disj (a b : RangeN) : Prop := a.stop ≤ b.start ∨ b.stop ≤ a.start

instance : DecidableRel RangeN.disj := fun a b =>
  inferInstanceAs (Decidable (a.stop ≤ b.start ∨ b.stop ≤ a.start))

theorem RangeN.disj_symm : Symmetric RangeN.disj := by
  intro a b h
  exact h.symm

/-- Stable insertion step for sorting by start offset: the new element goes
before the first element whose start is not below its own. -/
def insertByStart (r : RangeN) : List RangeN → List RangeN
  | [] => [r]
  | x :: xs => if r.start ≤ x.start then r :: x :: xs else x :: insertByStart r xs

/-- Stable sort by start offset, modelling the source's
`sort_by(|a, b| a.start.cmp(&b.start))` on the occupied-range vector. -/
def sortByStart : List RangeN → List RangeN
  | [] => []
  | x :: xs => insertByStart x (sortByStart xs)

theorem insertByStart_perm (r : RangeN) (l : List RangeN) :
    List.Perm (insertByStart r l) (r :: l) := by
  induction l with
  | nil => simp [insertByStart]
  | cons x xs ih =>
    simp only [insertByStart]
    split
    · exact List.Perm.refl _
    · exact ((ih.cons x).trans (List.Perm.swap r x xs))

theorem sortByStart_perm (l : List RangeN) : List.Perm (sortByStart l) l := by
  induction l with
  | nil => simp [sortByStart]
  | cons x xs ih =>
    exact (insertByStart_perm x (sortByStart xs)).trans (ih.cons x)

theorem mem_insertByStart {y r : RangeN} {l : List RangeN} :
    y ∈ insertByStart r l ↔ y = r ∨ y ∈ l := by
  rw [(insertByStart_perm r l).mem_iff]
  simp

theorem sorted_insertByStart (r : RangeN) {l : List RangeN}
    (h : List.Pairwise startLE l) :
    List.Pairwise startLE (insertByStart r l) := by
  induction l with
  | nil => simp [insertByStart, startLE]
  | cons x xs ih =>
    simp only [insertByStart]
    split
    · rename_i hle
      refine List.Pairwise.cons ?_ h
      intro y hy
      rcases List.mem_cons.mp hy with hy | hy
      · exact hy ▸ hle
      · exact Nat.le_trans hle (List.rel_of_pairwise_cons h hy)
    · rename_i hgt
      have hrx : startLE x r := Nat.le_of_not_le hgt
      refine List.Pairwise.cons ?_ (ih h.of_cons)
      intro y hy
      rcases mem_insertByStart.mp hy with hy | hy
      · exact hy ▸ hrx
      · exact List.rel_of_pairwise_cons h hy

theorem sorted_sortByStart (l : List RangeN) :
    List.Pairwise startLE (sortByStart l) := by
  induction l with
  | nil => simp [sortByStart]
  | cons x xs ih => exact sorted_insertByStart x ih

/-- Overlap check of `slice` (its first lock acquisition): every range
already bookkept must end before the request starts or start after it ends;
the source writes `range.end <= sub_range.start || range.start >= sub_range.end`
under `iter().all`. -/
def overlapCheck (s : List RangeN) (range : RangeN) : Bool :=
  s.all fun sub_range =>
    decide (range.stop ≤ sub_range.start) || decide (range.start ≥ sub_range.stop)

theorem overlapCheck_iff (s : List RangeN) (range : RangeN) :
    overlapCheck s range = true ↔ ∀ x ∈ s, RangeN.disj range x := by
  simp [overlapCheck, RangeN.disj, List.all_eq_true, ge_iff_le]

/-- Body of `MemoryRegion::slice` acting on the protected range list of the
parent. The first component is the result (`Ok` carries the list after the
push and the re-sort), the second component is the final content of the
`Mutex` after the call: unchanged on either failure, the pushed-and-sorted
list on success. -/
def sliceListRun (length : Nat) (s : List RangeN) (range : RangeN) :
    Except Unit (List RangeN) × List RangeN :=
  if range.start ≥ range.stop ∨ range.stop > length then (Except.error (), s)
  else if overlapCheck s range then
    let s' := sortByStart (s ++ [range])
    (Except.ok s', s')
  else (Except.error (), s)

/-- Loop of `MemoryRegion::alloc`: `last` is the cursor (initially 0); on
the first bookkept range whose start leaves a gap of `size` bytes the loop
breaks with `Ok(last..last + size)`; otherwise the cursor advances to the
range's end. Returns the cursor value and the `ans` variable at loop exit. -/
def allocLoop (size : Nat) (last : Nat) : List RangeN → Nat × Except Unit RangeN
  | [] => (last, Except.error ())
  | r :: rest =>
    if last + size ≤ r.start then (last, Except.ok ⟨last, last + size⟩)
    else allocLoop size r.stop rest

/-- Range selection of `MemoryRegion::alloc`: after the loop the source
re-checks the tail gap `last + size <= self.length` and, when it fits,
overwrites `ans` with `Ok(last..last + size)`; otherwise the loop's `ans`
stands. -/
def allocRange (length size : Nat) (s : List RangeN) : Except Unit RangeN :=
  let p := allocLoop size 0 s
  if p.1 + size ≤ length then Except.ok ⟨p.1, p.1 + size⟩ else p.2

/-- Removal step of `Drop` for a node: `position` of the first exact match
of the dropped child's byte range in the parent's list, then `remove`; when
the range is absent the source's `unwrap` panics with the list unchanged. -/
def removeFirstRange (r : RangeN) : List RangeN → List RangeN
  | [] => []
  | x :: xs => if x = r then xs else x :: removeFirstRange r xs

theorem removeFirstRange_sublist (r : RangeN) (l : List RangeN) :
    List.Sublist (removeFirstRange r l) l := by
  induction l with
  | nil => simp [removeFirstRange]
  | cons x xs ih =>
    simp only [removeFirstRange]
    split
    · exact List.sublist_cons_self x xs
    · exact ih.cons₂ x

/-- Hardware registration record behind the `*mut ibv_mr` pointer: the code
reads `lkey` (at registration) and `rkey` (in `rkey()`) through it. -/
structure IbvMr where
  lkey : Nat
  rkey : Nat
  deriving DecidableEq

/-- Payload of a local root: the hardware registration record and the owned
zero-initialized backing buffer. The `_pd` field, an externally supplied
protection-domain handle kept only to extend its lifetime, is not modelled. -/
structure LocalRootData where
  inner_mr : IbvMr
  data : List Nat
  deriving DecidableEq

mutual

/-- The central entity of `memory_region.rs`. The `Mutex` around `sub` is
modelled by the list it protects; `Arc` sharing is modelled by value
snapshots (only `sub` ever mutates in the source, and the list-level
functions above carry that state explicitly). -/
inductive MemoryRegion where
  | mk (addr : Nat) (length : Nat) (key : Nat) (kind : Kind) (sub : List RangeN)

/-- Kind tag of a region; `LocalRoot` carries the hardware state, nodes
carry their parent and root references. -/
inductive Kind where
  | LocalRoot (lroot : LocalRootData)
  | LocalNode (node : Node)
  | RemoteRoot
  | RemoteNode (node : Node)

/-- Back references of a node: `fa` is the immediate parent, `root` the
ultimate root (both `Arc<MemoryRegion>` in the source). -/
inductive Node where
  | mk (fa : MemoryRegion) (root : MemoryRegion)

end

def MemoryRegion.addr : MemoryRegion → Nat
  | .mk a _ _ _ _ => a

def MemoryRegion.length : MemoryRegion → Nat
  | .mk _ l _ _ _ => l

def MemoryRegion.key : MemoryRegion → Nat
  | .mk _ _ k _ _ => k

def MemoryRegion.kind : MemoryRegion → Kind
  | .mk _ _ _ k _ => k

def MemoryRegion.sub : MemoryRegion → List RangeN
  | .mk _ _ _ _ s => s

def Node.fa : Node → MemoryRegion
  | .mk f _ => f

def Node.root : Node → MemoryRegion
  | .mk _ r => r

/-- Source: `matches!(self.kind, Kind::LocalNode(_) | Kind::RemoteNode(_))`. -/
def MemoryRegion.is_node (self : MemoryRegion) : Bool :=
  match self.kind with
  | Kind.LocalNode _ => true
  | Kind.RemoteNode _ => true
  | _ => false

/-- Source: `matches!(self.kind, Kind::LocalRoot(_) | Kind::LocalNode(_))`. -/
def MemoryRegion.is_local (self : MemoryRegion) : Bool :=
  match self.kind with
  | Kind.LocalRoot _ => true
  | Kind.LocalNode _ => true
  | _ => false

/-- Source `root()`: a node returns its stored root reference, a root
returns itself. -/
def MemoryRegion.root (self : MemoryRegion) : MemoryRegion :=
  match self.kind with
  | Kind.LocalNode n => n.root
  | Kind.RemoteNode n => n.root
  | _ => self

/-- Source `inner_mr()`: the hardware registration of a local root; on any
other kind the source hits `panic!()`, modelled as `none`. -/
def MemoryRegion.inner_mr (self : MemoryRegion) : Option IbvMr :=
  match self.kind with
  | Kind.LocalRoot lroot => some lroot.inner_mr
  | _ => none

/-- Source `rkey()`: dereferences `inner_mr()` and reads its `rkey` field,
hence panics (`none`) on every region that is not a local root. -/
def MemoryRegion.rkey (self : MemoryRegion) : Option Nat :=
  self.inner_mr.map IbvMr.rkey

/-- Wire descriptor `RemoteMemoryRegion` of the source. -/
structure RemoteMemoryRegion where
  addr : Nat
  len : Nat
  rkey : Nat
  deriving DecidableEq

/-- Source `remote_mr()`: builds the descriptor from `self.addr()`,
`self.length()` and `self.rkey()`; since `rkey()` panics on every region
that is not a local root, so does `remote_mr` (modelled as `none`). -/
def MemoryRegion.remote_mr (self : MemoryRegion) : Option RemoteMemoryRegion :=
  match self.rkey with
  | some k => some ⟨self.addr, self.length, k⟩
  | none => none

/-- Source `MemoryRegion::slice`. On success the source pushes the range
into the parent's mutex-protected list, re-sorts it, and builds the child;
the returned pair is the parent carrying its updated `sub` (the in-place
mutation of the shared state) and the child. -/
def MemoryRegion.slice (self : MemoryRegion) (range : RangeN) :
    Except Unit (MemoryRegion × MemoryRegion) :=
  match sliceListRun self.length self.sub range with
  | (Except.error e, _) => Except.error e
  | (Except.ok s', _) =>
    let fa' : MemoryRegion := MemoryRegion.mk self.addr self.length self.key self.kind s'
    let new_node : Node := Node.mk fa' fa'.root
    let kind := if self.is_local then Kind.LocalNode new_node else Kind.RemoteNode new_node
    Except.ok (fa', MemoryRegion.mk (self.addr + range.start)
      (range.stop - range.start) self.key kind [])

/-- Size-and-alignment request, `std::alloc::Layout`; `alloc` only ever
reads `size()`. -/
structure Layout where
  size : Nat
  align : Nat
  deriving DecidableEq

/-- Source `MemoryRegion::alloc`: first-fit range selection over the
current range list, then delegation to `slice`. -/
def MemoryRegion.alloc (self : MemoryRegion) (layout : Layout) :
    Except Unit (MemoryRegion × MemoryRegion) :=
  match allocRange self.length layout.size self.sub with
  | Except.error e => Except.error e
  | Except.ok range => self.slice range

/-- Observable outcome of `Drop for MemoryRegion`. -/
inductive DropEffect where
  | panicNonEmpty
  | deregister
  | removeFromParent (r : RangeN)
  | panicTodo
  deriving DecidableEq

/-- Whether a drop outcome is a Rust panic rather than a completed drop. -/
def DropEffect.isPanic : DropEffect → Bool
  | DropEffect.panicNonEmpty => true
  | DropEffect.panicTodo => true
  | _ => false

/-- Source `Drop for MemoryRegion`: first `assert_eq!(sub.len(), 0)` (a
panic when children are still bookkept); then a local root deregisters its
hardware registration (`ibv_dereg_mr`), a node removes the exact byte range
`self.addr - fa.addr .. self.length + self.addr - fa.addr` from its
parent's list (see `removeFirstRange`), and the remaining arm — a remote
root — is the source's `todo!()`, a panic. -/
def dropEffect (self : MemoryRegion) : DropEffect :=
  if self.sub.length ≠ 0 then DropEffect.panicNonEmpty
  else
    match self.kind with
    | Kind.LocalRoot _ => DropEffect.deregister
    | Kind.LocalNode n =>
      DropEffect.removeFromParent
        ⟨self.addr - n.fa.addr, self.length + self.addr - n.fa.addr⟩
    | Kind.RemoteNode n =>
      DropEffect.removeFromParent
        ⟨self.addr - n.fa.addr, self.length + self.addr - n.fa.addr⟩
    | Kind.RemoteRoot => DropEffect.panicTodo

/-- One call against a region's occupied-range bookkeeping: a `slice`
request, an `alloc` request, or the drop of a child node (which removes
that child's exact byte range). -/
inductive Op where
  | slice (r : RangeN)
  | alloc (layout : Layout)
  | destroy (r : RangeN)

/-- Effect of one call on the protected range list: failed `slice`/`alloc`
calls leave it unchanged (`sliceListRun` already returns the unchanged list
on failure), a node drop removes the first exact match of its range. -/
def stepOp (length : Nat) (s : List RangeN) : Op → List RangeN
  | Op.slice r => (sliceListRun length s r).2
  | Op.alloc layout =>
    match allocRange length layout.size s with
    | Except.error _ => s
    | Except.ok rg => (sliceListRun length s rg).2
  | Op.destroy r => removeFirstRange r s

/-- Occupied-range list of a region of byte length `length` after a
sequence of calls, starting from the empty list a fresh region carries. -/
def runOps (length : Nat) (ops : List Op) : List RangeN :=
  ops.foldl (stepOp length) []

/-- Bookkeeping invariant of a region: every range is non-empty and within
the region, ranges are pairwise disjoint and ascending by start offset. -/
def rangesInv (length : Nat) (s : List RangeN) : Prop :=
  (∀ r ∈ s, r.start < r.stop ∧ r.stop ≤ length) ∧
  List.Pairwise RangeN.disj s ∧
  List.Pairwise startLE s

theorem rangesInv_sliceListRun {L : Nat} {s : List RangeN} (range : RangeN)
    (h : rangesInv L s) : rangesInv L (sliceListRun L s range).2 := by
  unfold sliceListRun
  split
  · exact h
  · rename_i hok
    rw [not_or] at hok
    have hlt : range.start < range.stop := Nat.lt_of_not_le hok.1
    have hle : range.stop ≤ L := Nat.le_of_not_lt hok.2
    split
    · rename_i hchk
      have hdisj := (overlapCheck_iff s range).mp hchk
      have hperm := sortByStart_perm (s ++ [range])
      refine ⟨?_, ?_, sorted_sortByStart _⟩
      · intro r hr
        rcases List.mem_append.mp (hperm.mem_iff.mp hr) with hr | hr
        · exact h.1 r hr
        · rcases List.mem_singleton.mp hr with rfl
          exact ⟨hlt, hle⟩
      · refine (hperm.pairwise_iff fun h => Or.symm h).mpr ?_
        rw [List.pairwise_append]
        refine ⟨h.2.1, List.pairwise_singleton _ _, ?_⟩
        intro a ha b hb
        rcases List.mem_singleton.mp hb with rfl
        exact (hdisj a ha).symm
    · exact h

theorem rangesInv_removeFirstRange {L : Nat} {s : List RangeN} (r : RangeN)
    (h : rangesInv L s) : rangesInv L (removeFirstRange r s) := by
  have hsub := removeFirstRange_sublist r s
  exact ⟨fun x hx => h.1 x (hsub.subset hx),
    List.Pairwise.sublist hsub h.2.1,
    List.Pairwise.sublist hsub h.2.2⟩

theorem rangesInv_stepOp {L : Nat} {s : List RangeN} (op : Op)
    (h : rangesInv L s) : rangesInv L (stepOp L s op) := by
  cases op with
  | slice r => exact rangesInv_sliceListRun r h
  | alloc layout =>
    simp only [stepOp]
    split
    · exact h
    · exact rangesInv_sliceListRun _ h
  | destroy r => exact rangesInv_removeFirstRange r h

theorem rangesInv_runOps (L : Nat) (ops : List Op) : rangesInv L (runOps L ops) := by
  have hgen : ∀ s, rangesInv L s → rangesInv L (ops.foldl (stepOp L) s) := by
    induction ops with
    | nil => exact fun s h => h
    | cons op rest ih => exact fun s h => ih _ (rangesInv_stepOp op h)
  exact hgen [] ⟨by simp, List.Pairwise.nil, List.Pairwise.nil⟩

/-- C1: for every region, after any sequence of slice/alloc calls and node
destructions (successful ones being the only ones that mutate the list),
the occupied ranges all satisfy `0 ≤ start < stop ≤ length`, are pairwise
disjoint, and are kept in ascending order by start offset. -/
theorem occupied_ranges_invariant (L : Nat) (ops : List Op) :
    (∀ r ∈ runOps L ops, 0 ≤ r.start ∧ r.start < r.stop ∧ r.stop ≤ L) ∧
    List.Pairwise RangeN.disj (runOps L ops) ∧
    List.Pairwise startLE (runOps L ops) := by
  obtain ⟨h1, h2, h3⟩ := rangesInv_runOps L ops
  exact ⟨fun r hr => ⟨Nat.zero_le _, h1 r hr⟩, h2, h3⟩

/-- What it means for a window of `size` bytes placed at offset `t` to fit
in a region of byte length `length` with bookkept ranges `s`: it stays
within the region and avoids every bookkept range. -/
def fitsIn (length size : Nat) (s : List RangeN) (t : Nat) : Prop :=
  t + size ≤ length ∧ ∀ r ∈ s, t + size ≤ r.start ∨ r.stop ≤ t

instance (length size : Nat) (s : List RangeN) (t : Nat) :
    Decidable (fitsIn length size s t) :=
  inferInstanceAs (Decidable (_ ∧ _))

theorem allocLoop_spec (size L : Nat) :
    ∀ (l : List RangeN) (c last : Nat) (ans : Except Unit RangeN),
      allocLoop size c l = (last, ans) →
      (∀ r ∈ l, c ≤ r.start) →
      List.Pairwise (fun a b : RangeN => a.stop ≤ b.start) l →
      (∀ r ∈ l, r.start < r.stop ∧ r.stop ≤ L) →
      c ≤ last ∧
      (ans = Except.error () → ∀ r ∈ l, r.stop ≤ last) ∧
      (∀ rg, ans = Except.ok rg →
        rg = ⟨last, last + size⟩ ∧
        (∀ r ∈ l, last + size ≤ r.start ∨ r.stop ≤ last) ∧
        ∃ r ∈ l, last + size ≤ r.start) ∧
      (∀ t, c ≤ t → t < last → ∃ r ∈ l, ¬(t + size ≤ r.start ∨ r.stop ≤ t)) := by
  intro l
  induction l with
  | nil =>
    intro c last ans heq _ _ _
    simp only [allocLoop, Prod.mk.injEq] at heq
    obtain ⟨rfl, hans⟩ := heq
    refine ⟨Nat.le_refl _, fun _ r hr => absurd hr (List.not_mem_nil r), ?_, ?_⟩
    · intro rg hrg
      rw [← hans] at hrg
      exact absurd hrg (by simp)
    · intro t h1 h2
      exact absurd (Nat.lt_of_le_of_lt h1 h2) (Nat.lt_irrefl c)
  | cons r rest ih =>
    intro c last ans heq hcle hpair hbounds
    simp only [allocLoop] at heq
    split at heq
    · rename_i hc
      simp only [Prod.mk.injEq] at heq
      obtain ⟨rfl, hans⟩ := heq
      have hrmem : r ∈ r :: rest := List.mem_cons_self r rest
      refine ⟨Nat.le_refl _, ?_, ?_, ?_⟩
      · intro he
        rw [← hans] at he
        exact absurd he (by simp)
      · intro rg hrg
        rw [← hans] at hrg
        rw [Except.ok.injEq] at hrg
        refine ⟨hrg.symm, ?_, ⟨r, hrmem, hc⟩⟩
        intro x hx
        rcases List.mem_cons.mp hx with rfl | hx
        · exact Or.inl hc
        · refine Or.inl ?_
          calc c + size ≤ r.start := hc
            _ ≤ r.stop := Nat.le_of_lt (hbounds r hrmem).1
            _ ≤ x.start := List.rel_of_pairwise_cons hpair hx
      · intro t h1 h2
        exact absurd (Nat.lt_of_le_of_lt h1 h2) (Nat.lt_irrefl c)
    · rename_i hnc
      have hrmem : r ∈ r :: rest := List.mem_cons_self r rest
      have hrest_le : ∀ x ∈ rest, r.stop ≤ x.start :=
        fun x hx => List.rel_of_pairwise_cons hpair hx
      have hrest_bounds : ∀ x ∈ rest, x.start < x.stop ∧ x.stop ≤ L :=
        fun x hx => hbounds x (List.mem_cons_of_mem r hx)
      obtain ⟨ih1, ih2, ih3, ih4⟩ :=
        ih r.stop last ans heq hrest_le hpair.of_cons hrest_bounds
      have hcr : c ≤ r.stop :=
        Nat.le_trans (hcle r hrmem) (Nat.le_of_lt (hbounds r hrmem).1)
      refine ⟨Nat.le_trans hcr ih1, ?_, ?_, ?_⟩
      · intro he x hx
        rcases List.mem_cons.mp hx with rfl | hx
        · exact ih1
        · exact ih2 he x hx
      · intro rg hrg
        obtain ⟨h3a, h3b, x, hx, hxle⟩ := ih3 rg hrg
        refine ⟨h3a, ?_, ⟨x, List.mem_cons_of_mem r hx, hxle⟩⟩
        intro y hy
        rcases List.mem_cons.mp hy with rfl | hy
        · exact Or.inr ih1
        · exact h3b y hy
      · intro t ht1 ht2
        by_cases htr : t < r.stop
        · refine ⟨r, hrmem, ?_⟩
          intro contra
          rcases contra with hcontra | hcontra
          · exact hnc (Nat.le_trans (Nat.add_le_add_right ht1 size) hcontra)
          · exact absurd htr (Nat.not_lt.mpr hcontra)
        · obtain ⟨x, hx, hv⟩ := ih4 t (Nat.le_of_not_lt htr) ht2
          exact ⟨x, List.mem_cons_of_mem r hx, hv⟩

/-- Sorted-disjoint-in-bounds bookkeeping yields the chain shape the
first-fit scan relies on: each range ends before the next begins. -/
theorem rangesInv_chain {L : Nat} {s : List RangeN} (h : rangesInv L s) :
    List.Pairwise (fun a b : RangeN => a.stop ≤ b.start) s := by
  refine (h.2.1.and h.2.2).imp_of_mem ?_
  intro a b ha hb hab
  rcases hab.1 with hd | hd
  · exact hd
  · exfalso
    have hblt : b.start < b.stop := (h.1 b hb).1
    exact Nat.lt_irrefl b.start
      (Nat.lt_of_lt_of_le hblt (Nat.le_trans hd hab.2))

/-- A fitting window passes every check of `slice`. -/
theorem slice_of_fits {L size : Nat} {s : List RangeN} {t : Nat}
    (hsize : 0 < size) (hfit : fitsIn L size s t) :
    sliceListRun L s ⟨t, t + size⟩ =
      (Except.ok (sortByStart (s ++ [⟨t, t + size⟩])),
       sortByStart (s ++ [⟨t, t + size⟩])) := by
  have h1 : ¬((⟨t, t + size⟩ : RangeN).start ≥ (⟨t, t + size⟩ : RangeN).stop ∨
      (⟨t, t + size⟩ : RangeN).stop > L) := by
    rw [not_or]
    exact ⟨Nat.not_le.mpr (Nat.lt_add_of_pos_right hsize), Nat.not_lt.mpr hfit.1⟩
  have h2 : overlapCheck s ⟨t, t + size⟩ = true := by
    rw [overlapCheck_iff]
    intro x hx
    exact hfit.2 x hx
  simp [sliceListRun, h1, h2, Nat.pos_iff_ne_zero.mp hsize, hfit.1]

theorem allocRange_spec {L size : Nat} {s : List RangeN}
    (hinv : rangesInv L s) :
    (∀ rg, allocRange L size s = Except.ok rg →
      rg.stop = rg.start + size ∧ fitsIn L size s rg.start ∧
      ∀ t, t < rg.start → ¬ fitsIn L size s t) ∧
    (allocRange L size s = Except.error () ↔ ¬ ∃ t, fitsIn L size s t) := by
  obtain ⟨last, ans, heq⟩ : ∃ last ans, allocLoop size 0 s = (last, ans) :=
    ⟨_, _, rfl⟩
  obtain ⟨h1, h2, h3, h4⟩ := allocLoop_spec size L s 0 last ans heq
    (fun r _ => Nat.zero_le _) (rangesInv_chain hinv) hinv.1
  have hAR : allocRange L size s =
      if last + size ≤ L then Except.ok ⟨last, last + size⟩ else ans := by
    simp [allocRange, heq]
  by_cases htail : last + size ≤ L
  · have hres : allocRange L size s = Except.ok ⟨last, last + size⟩ := by
      rw [hAR, if_pos htail]
    have hdisj : ∀ r ∈ s, last + size ≤ r.start ∨ r.stop ≤ last := by
      cases hans : ans with
      | error e => exact fun r hr => Or.inr (h2 (by cases e; exact hans) r hr)
      | ok rg => exact (h3 rg hans).2.1
    have hfit : fitsIn L size s last := ⟨htail, hdisj⟩
    have hmin : ∀ t, t < last → ¬ fitsIn L size s t := by
      intro t ht hf
      obtain ⟨x, hx, hv⟩ := h4 t (Nat.zero_le t) ht
      exact hv (hf.2 x hx)
    refine ⟨?_, ?_, ?_⟩
    · intro rg hrg
      rw [hres, Except.ok.injEq] at hrg
      rcases hrg with rfl
      exact ⟨rfl, hfit, hmin⟩
    · intro he
      rw [hres] at he
      exact absurd he (by simp)
    · intro hne
      exact absurd ⟨last, hfit⟩ hne
  · have hres : allocRange L size s = ans := by rw [hAR, if_neg htail]
    cases hans : ans with
    | ok rg =>
      exfalso
      obtain ⟨_, _, x, hx, hxle⟩ := h3 rg hans
      obtain ⟨hxlt, hxL⟩ := hinv.1 x hx
      exact htail (Nat.le_trans (Nat.le_trans hxle (Nat.le_of_lt hxlt)) hxL)
    | error e =>
      cases e
      have hnofit : ¬ ∃ t, fitsIn L size s t := by
        rintro ⟨t, hf⟩
        by_cases ht : t < last
        · obtain ⟨x, hx, hv⟩ := h4 t (Nat.zero_le t) ht
          exact hv (hf.2 x hx)
        · exact htail
            (Nat.le_trans (Nat.add_le_add_right (Nat.le_of_not_lt ht) size) hf.1)
      refine ⟨?_, ?_⟩
      · intro rg hrg
        rw [hres, hans] at hrg
        exact absurd hrg (by simp)
      · rw [hres, hans]
        exact ⟨fun _ => hnofit, fun _ => rfl⟩

/-- C2: on a parent whose bookkeeping is sorted, pairwise disjoint and
in-bounds, `alloc` with a positive size is first-fit: every successful
range selection is the lowest-offset window of exactly `layout.size` bytes
avoiding all bookkept ranges and the region end, and `alloc` fails exactly
when no interior or tail window of that size exists. -/
theorem alloc_first_fit (self : MemoryRegion) (layout : Layout)
    (hinv : rangesInv self.length self.sub) (hsize : 0 < layout.size) :
    (∀ rg, allocRange self.length layout.size self.sub = Except.ok rg →
      rg.stop = rg.start + layout.size ∧
      fitsIn self.length layout.size self.sub rg.start ∧
      ∀ t, t < rg.start → ¬ fitsIn self.length layout.size self.sub t) ∧
    ((∃ e, MemoryRegion.alloc self layout = Except.error e) ↔
      ¬ ∃ t, fitsIn self.length layout.size self.sub t) := by
  obtain ⟨hok, herr⟩ := allocRange_spec hinv
  refine ⟨hok, ?_, ?_⟩
  · rintro ⟨e, he⟩
    cases e
    rw [← herr]
    cases hAR : allocRange self.length layout.size self.sub with
    | error e2 => cases e2; rfl
    | ok rg =>
      exfalso
      obtain ⟨hstop, hfit, _⟩ := hok rg hAR
      cases rg with
      | mk a b =>
        simp only at hstop
        subst hstop
        simp only [MemoryRegion.alloc, hAR] at he
        simp [MemoryRegion.slice, slice_of_fits hsize hfit] at he
  · intro hn
    have hARe : allocRange self.length layout.size self.sub = Except.error () :=
      herr.mpr hn
    exact ⟨(), by simp [MemoryRegion.alloc, hARe]⟩

/-- Sample 128-byte local root used to instantiate the hypotheses of the
claim theorems on concrete inputs. -/
def sampleRoot : MemoryRegion :=
  MemoryRegion.mk 4096 128 7 (Kind.LocalRoot ⟨⟨7, 9⟩, List.replicate 128 0⟩) []

/-- Witness for C2 at a concrete input: a fresh 128-byte root with an
empty bookkeeping list satisfies the invariant, the requested size 64 is
positive, and the first-fit characterization follows. -/
theorem alloc_first_fit_witness :
    rangesInv sampleRoot.length sampleRoot.sub ∧
    0 < (Layout.mk 64 8).size ∧
    ((∃ e, MemoryRegion.alloc sampleRoot (Layout.mk 64 8) = Except.error e) ↔
      ¬ ∃ t, fitsIn sampleRoot.length (Layout.mk 64 8).size sampleRoot.sub t) := by
  have hinv : rangesInv sampleRoot.length sampleRoot.sub :=
    ⟨by simp [sampleRoot, MemoryRegion.sub], List.Pairwise.nil, List.Pairwise.nil⟩
  exact ⟨hinv, Nat.succ_pos 63,
    (alloc_first_fit sampleRoot (Layout.mk 64 8) hinv (Nat.succ_pos 63)).2⟩

/-- C3: `slice` fails exactly when the range is empty or reversed, past the
parent's length, or intersecting a bookkept entry; every failure leaves the
parent's list untouched, and on success the inserted range is present and
disjoint from every previously bookkept (currently-live) child range,
the rest of the list being preserved up to order. -/
theorem slice_failure_frame (L : Nat) (s : List RangeN) (range : RangeN) :
    ((sliceListRun L s range).1 = Except.error () ↔
      (range.stop ≤ range.start ∨ L < range.stop ∨ ∃ x ∈ s, ¬ RangeN.disj range x)) ∧
    ((sliceListRun L s range).1 = Except.error () → (sliceListRun L s range).2 = s) ∧
    (∀ s', (sliceListRun L s range).1 = Except.ok s' →
      (sliceListRun L s range).2 = s' ∧
      List.Perm s' (s ++ [range]) ∧
      range ∈ s' ∧ ∀ x ∈ s, RangeN.disj range x) ∧
    (∀ self : MemoryRegion, self.length = L → self.sub = s →
      ((∃ e, MemoryRegion.slice self range = Except.error e) ↔
        (range.stop ≤ range.start ∨ L < range.stop ∨ ∃ x ∈ s, ¬ RangeN.disj range x))) := by
  have hiff : (sliceListRun L s range).1 = Except.error () ↔
      (range.stop ≤ range.start ∨ L < range.stop ∨ ∃ x ∈ s, ¬ RangeN.disj range x) := by
    by_cases h1 : range.start ≥ range.stop ∨ range.stop > L
    · simp only [sliceListRun, if_pos h1]
      refine ⟨fun _ => ?_, fun _ => trivial⟩
      rcases h1 with h | h
      · exact Or.inl h
      · exact Or.inr (Or.inl h)
    · by_cases h2 : overlapCheck s range = true
      · simp only [sliceListRun, if_neg h1, h2, if_true]
        constructor
        · intro he
          exact absurd he (by simp)
        · intro hr
          exfalso
          rw [not_or] at h1
          rcases hr with h | h | ⟨x, hx, hnd⟩
          · exact h1.1 h
          · exact h1.2 h
          · exact hnd ((overlapCheck_iff s range).mp h2 x hx)
      · simp only [sliceListRun, if_neg h1, Bool.not_eq_true] at h2 ⊢
        simp only [h2, if_false]
        constructor
        · intro _
          refine Or.inr (Or.inr ?_)
          by_contra hno
          push_neg at hno
          rw [← Bool.not_eq_true] at h2
          exact h2 ((overlapCheck_iff s range).mpr hno)
        · intro _
          trivial
  have hunch : (sliceListRun L s range).1 = Except.error () →
      (sliceListRun L s range).2 = s := by
    intro he
    by_cases h1 : range.start ≥ range.stop ∨ range.stop > L
    · simp [sliceListRun, h1]
    · by_cases h2 : overlapCheck s range = true
      · exfalso
        revert he
        simp [sliceListRun, h1, h2]
      · simp [sliceListRun, h1, h2]
  have hok : ∀ s', (sliceListRun L s range).1 = Except.ok s' →
      (sliceListRun L s range).2 = s' ∧ List.Perm s' (s ++ [range]) ∧
      range ∈ s' ∧ ∀ x ∈ s, RangeN.disj range x := by
    intro s' hs'
    by_cases h1 : range.start ≥ range.stop ∨ range.stop > L
    · exfalso
      revert hs'
      simp [sliceListRun, h1]
    · by_cases h2 : overlapCheck s range = true
      · have hval : sortByStart (s ++ [range]) = s' := by
          revert hs'
          simp [sliceListRun, h1, h2]
        subst hval
        refine ⟨by simp [sliceListRun, h1, h2], sortByStart_perm _, ?_, ?_⟩
        · rw [(sortByStart_perm _).mem_iff]
          exact List.mem_append.mpr (Or.inr (List.mem_singleton.mpr rfl))
        · exact (overlapCheck_iff s range).mp h2
      · exfalso
        revert hs'
        simp [sliceListRun, h1, h2]
  refine ⟨hiff, hunch, hok, ?_⟩
  intro self hL hs
  constructor
  · rintro ⟨e, he⟩
    cases e
    refine hiff.mp ?_
    cases hrun : sliceListRun L s range with
    | mk a b =>
      cases a with
      | error e2 =>
        cases e2
        rfl
      | ok s' =>
        exfalso
        rw [MemoryRegion.slice.eq_def, hL, hs, hrun] at he
        exact absurd he (by simp)
  · intro hrhs
    have hlist := hiff.mpr hrhs
    cases hrun : sliceListRun L s range with
    | mk a b =>
      cases a with
      | error e2 =>
        cases e2
        refine ⟨(), ?_⟩
        rw [MemoryRegion.slice.eq_def, hL, hs, hrun]
      | ok s' =>
        exfalso
        rw [hrun] at hlist
        exact absurd hlist (by simp)

/-- Number of times `slice` acquires the parent's `sub` mutex on each
control path, read off the three distinct `self.sub.lock()` call sites: the
bounds precheck takes no lock; a slice stopped by the overlap check has
taken the lock once; the success path locks again for the push and a third
time for the re-sort, releasing the guard between the three sections. -/
def sliceLockAcquisitions (length : Nat) (s : List RangeN) (range : RangeN) : Nat :=
  if range.start ≥ range.stop ∨ range.stop > length then 0
  else if overlapCheck s range then 3
  else 1

/-- C5 evidence: a successful slice takes the lock three separate times
rather than once, and the interleaving check₁, check₂, push₁, sort₁,
push₂, sort₂ of two `slice(0..64)` calls on an initially empty 128-byte
region lets both pass the overlap check against the stale empty list and
leaves two overlapping ranges bookkept. -/
theorem slice_lock_race :
    sliceLockAcquisitions 128 [] ⟨0, 64⟩ = 3 ∧
    sliceLockAcquisitions 128 [] ⟨0, 64⟩ ≠ 1 ∧
    overlapCheck [] ⟨0, 64⟩ = true ∧
    sortByStart (sortByStart ([] ++ [(⟨0, 64⟩ : RangeN)]) ++ [(⟨0, 64⟩ : RangeN)]) =
      [⟨0, 64⟩, ⟨0, 64⟩] ∧
    ¬ List.Pairwise RangeN.disj [(⟨0, 64⟩ : RangeN), ⟨0, 64⟩] := by
  refine ⟨by decide, by decide, by decide, by decide, ?_⟩
  intro h
  have hd := List.rel_of_pairwise_cons h (List.mem_cons_self _ _)
  rcases hd with hd | hd <;> exact absurd hd (by decide)

/-- Replacing only the `sub` field of a region does not change the key of
its root: a node keeps its stored root reference, a root is its own root
and keeps its own key. -/
theorem root_key_update (self : MemoryRegion) (s' : List RangeN) :
    (MemoryRegion.mk self.addr self.length self.key self.kind s').root.key =
      self.root.key := by
  obtain ⟨a, l, k, kd, sb⟩ := self
  cases kd <;> rfl

/-- C6: a successful slice returns a child whose address is the parent's
address plus the range start, whose length is the range's length, and whose
key is the parent's key (hence the root's key whenever the parent's key is);
the child is a local node exactly when the parent is local, a remote node
otherwise. -/
theorem slice_child_fields (self : MemoryRegion) (range : RangeN)
    (p c : MemoryRegion) (h : MemoryRegion.slice self range = Except.ok (p, c)) :
    c.addr = self.addr + range.start ∧
    c.length = range.stop - range.start ∧
    c.key = self.key ∧
    (self.is_local = true → ∃ n, c.kind = Kind.LocalNode n) ∧
    (self.is_local = false → ∃ n, c.kind = Kind.RemoteNode n) ∧
    c.root.key = self.root.key := by
  cases hrun : sliceListRun self.length self.sub range with
  | mk a b =>
    cases a with
    | error e =>
      exfalso
      rw [MemoryRegion.slice.eq_def, hrun] at h
      exact absurd h (by simp)
    | ok s' =>
      rw [MemoryRegion.slice.eq_def, hrun] at h
      simp only [Except.ok.injEq, Prod.mk.injEq] at h
      obtain ⟨hp, hc⟩ := h
      subst hc
      refine ⟨rfl, rfl, rfl, ?_, ?_, ?_⟩
      · intro hloc
        simp only [MemoryRegion.kind, hloc, if_true]
        exact ⟨_, rfl⟩
      · intro hloc
        simp only [MemoryRegion.kind, hloc, Bool.false_eq_true, if_false]
        exact ⟨_, rfl⟩
      · cases hloc : self.is_local with
        | true =>
          simp only [hloc, if_true, MemoryRegion.root, MemoryRegion.kind, Node.root]
          exact root_key_update self s'
        | false =>
          simp only [hloc, Bool.false_eq_true, if_false, MemoryRegion.root,
            MemoryRegion.kind, Node.root]
          exact root_key_update self s'

/-- Bookkeeping list of `sampleRoot` after slicing `[0, 64)` out of it. -/
def sampleRootAfter : MemoryRegion :=
  MemoryRegion.mk 4096 128 7 (Kind.LocalRoot ⟨⟨7, 9⟩, List.replicate 128 0⟩) [⟨0, 64⟩]

/-- Child produced by slicing `[0, 64)` out of `sampleRoot`. -/
def sampleChild : MemoryRegion :=
  MemoryRegion.mk 4096 64 7 (Kind.LocalNode (Node.mk sampleRootAfter sampleRootAfter)) []

/-- Witness for C6 on a concrete slice of the sample root. -/
theorem slice_child_fields_witness :
    MemoryRegion.slice sampleRoot ⟨0, 64⟩ = Except.ok (sampleRootAfter, sampleChild) ∧
    (sampleChild.addr = sampleRoot.addr + (⟨0, 64⟩ : RangeN).start ∧
     sampleChild.length = (⟨0, 64⟩ : RangeN).stop - (⟨0, 64⟩ : RangeN).start ∧
     sampleChild.key = sampleRoot.key ∧
     (sampleRoot.is_local = true → ∃ n, sampleChild.kind = Kind.LocalNode n) ∧
     (sampleRoot.is_local = false → ∃ n, sampleChild.kind = Kind.RemoteNode n) ∧
     sampleChild.root.key = sampleRoot.root.key) := by
  have hEq : MemoryRegion.slice sampleRoot ⟨0, 64⟩ =
      Except.ok (sampleRootAfter, sampleChild) := by rfl
  exact ⟨hEq, slice_child_fields sampleRoot ⟨0, 64⟩ sampleRootAfter sampleChild hEq⟩

/-- C7: dropping a region whose bookkeeping list is non-empty is a panic
(the leading `assert_eq!`), a non-panicking drop implies the list was
empty, and in particular the hardware deregistration of a local root only
ever happens from an empty list. -/
theorem drop_requires_empty :
    (∀ reg : MemoryRegion, reg.sub ≠ [] →
      dropEffect reg = DropEffect.panicNonEmpty) ∧
    (∀ reg : MemoryRegion, dropEffect reg ≠ DropEffect.panicNonEmpty →
      reg.sub = []) ∧
    (∀ reg : MemoryRegion, dropEffect reg = DropEffect.deregister →
      reg.sub = [] ∧ ∃ lr, reg.kind = Kind.LocalRoot lr) := by
  have hpanic : ∀ reg : MemoryRegion, reg.sub ≠ [] →
      dropEffect reg = DropEffect.panicNonEmpty := by
    intro reg hne
    have hlen : reg.sub.length ≠ 0 := by
      intro h0
      exact hne (List.length_eq_zero.mp h0)
    simp [dropEffect, hlen]
  refine ⟨hpanic, ?_, ?_⟩
  · intro reg hnp
    by_contra hne
    exact hnp (hpanic reg hne)
  · intro reg hd
    have hsub : reg.sub = [] := by
      by_contra hne
      rw [hpanic reg hne] at hd
      exact absurd hd (by decide)
    refine ⟨hsub, ?_⟩
    have hlen : ¬ reg.sub.length ≠ 0 := by simp [hsub]
    cases hk : reg.kind with
    | LocalRoot lr => exact ⟨lr, rfl⟩
    | LocalNode n =>
      rw [dropEffect, if_neg hlen, hk] at hd
      exact absurd hd (by simp)
    | RemoteRoot =>
      rw [dropEffect, if_neg hlen, hk] at hd
      exact absurd hd (by simp)
    | RemoteNode n =>
      rw [dropEffect, if_neg hlen, hk] at hd
      exact absurd hd (by simp)

/-- Witness for C7: a root still bookkeeping one child panics on drop. -/
theorem drop_requires_empty_witness :
    sampleRootAfter.sub ≠ [] ∧
    dropEffect sampleRootAfter = DropEffect.panicNonEmpty := by
  have hne : sampleRootAfter.sub ≠ [] := by
    intro h
    exact absurd h (by decide)
  exact ⟨hne, drop_requires_empty.1 sampleRootAfter hne⟩

/-- Imported remote-root region used for the remote-root drop claims. -/
def sampleRemoteRoot : MemoryRegion :=
  MemoryRegion.mk 8192 256 11 Kind.RemoteRoot []

/-- C8 counterexample: dropping a remote root with an empty bookkeeping
list does not complete normally — the source's remote-root match arm is
`todo!()`, i.e. a panic. -/
theorem remoteroot_drop_cex :
    dropEffect sampleRemoteRoot = DropEffect.panicTodo ∧
    DropEffect.isPanic (dropEffect sampleRemoteRoot) = true := by
  exact ⟨rfl, rfl⟩

/-- C8 amended: dropping a remote root with empty bookkeeping hits the
unimplemented `todo!()` arm — a panic rather than a normal completion —
and in particular performs no hardware deregistration. -/
theorem remoteroot_drop_unimplemented (a l k : Nat) :
    dropEffect (MemoryRegion.mk a l k Kind.RemoteRoot []) = DropEffect.panicTodo ∧
    DropEffect.panicTodo ≠ DropEffect.deregister := by
  exact ⟨rfl, by decide⟩

/-- C4 counterexample: `remote_mr` is not usable on every region — on a
remote root, and likewise on a sliced local node, `rkey()` reaches the
`panic!()` inside `inner_mr()` (modelled as `none`). -/
theorem remote_mr_panics_cex :
    MemoryRegion.remote_mr sampleRemoteRoot = none ∧
    MemoryRegion.remote_mr sampleChild = none := by
  exact ⟨rfl, rfl⟩

/-- C4 amended: on a local root `remote_mr` is a pure snapshot whose
fields equal the region's own `addr()`, `length()` and `rkey()` accessor
values; on every other kind `rkey()` panics through `inner_mr()`, so
`remote_mr` panics as well. -/
theorem remote_mr_fields :
    (∀ (reg : MemoryRegion) (lr : LocalRootData), reg.kind = Kind.LocalRoot lr →
      reg.rkey = some lr.inner_mr.rkey ∧
      reg.remote_mr = some ⟨reg.addr, reg.length, lr.inner_mr.rkey⟩) ∧
    (∀ reg : MemoryRegion, (∀ lr, reg.kind ≠ Kind.LocalRoot lr) →
      reg.remote_mr = none) := by
  constructor
  · intro reg lr h
    have hr : reg.rkey = some lr.inner_mr.rkey := by
      simp [MemoryRegion.rkey, MemoryRegion.inner_mr, h]
    exact ⟨hr, by simp [MemoryRegion.remote_mr, hr]⟩
  · intro reg h
    cases hk : reg.kind with
    | LocalRoot lr => exact absurd hk (h lr)
    | LocalNode n =>
      simp [MemoryRegion.remote_mr, MemoryRegion.rkey, MemoryRegion.inner_mr, hk]
    | RemoteRoot =>
      simp [MemoryRegion.remote_mr, MemoryRegion.rkey, MemoryRegion.inner_mr, hk]
    | RemoteNode n =>
      simp [MemoryRegion.remote_mr, MemoryRegion.rkey, MemoryRegion.inner_mr, hk]

/-- Witness for the amended C4 on the sample local root. -/
theorem remote_mr_fields_witness :
    sampleRoot.kind = Kind.LocalRoot ⟨⟨7, 9⟩, List.replicate 128 0⟩ ∧
    (sampleRoot.rkey = some 9 ∧
     sampleRoot.remote_mr = some ⟨sampleRoot.addr, sampleRoot.length, 9⟩) := by
  exact ⟨rfl, remote_mr_fields.1 sampleRoot ⟨⟨7, 9⟩, List.replicate 128 0⟩ rfl⟩

/-- C9 counterexample: an empty-range `slice` failure, an overlapping
`slice` failure and an out-of-space `alloc` failure all return the same
error value `Err(())` — the unit error type distinguishes nothing. -/
theorem errors_indistinguishable_cex :
    (sliceListRun 128 [] ⟨5, 5⟩).1 = Except.error () ∧
    (sliceListRun 128 [⟨0, 64⟩] ⟨0, 64⟩).1 = Except.error () ∧
    allocRange 128 64 [⟨0, 96⟩] = Except.error () ∧
    (sliceListRun 128 [] ⟨5, 5⟩).1 = (sliceListRun 128 [⟨0, 64⟩] ⟨0, 64⟩).1 := by
  exact ⟨rfl, rfl, rfl, rfl⟩

/-- C9 amended: `slice` and `alloc` report every allocation-shape failure
as an ordinary `Err` return value to the immediate caller (none of their
paths panics), but the payload is always the unit value, so `InvalidRange`,
`Overlap` and `OutOfSpace` are not distinguishable from the result. -/
theorem errors_returned_as_unit :
    (∀ (self : MemoryRegion) (range : RangeN) (e : Unit),
      MemoryRegion.slice self range = Except.error e → e = ()) ∧
    (∀ (self : MemoryRegion) (layout : Layout) (e : Unit),
      MemoryRegion.alloc self layout = Except.error e → e = ()) ∧
    (∀ (s₁ s₂ : MemoryRegion) (r₁ r₂ : RangeN) (e₁ e₂ : Unit),
      MemoryRegion.slice s₁ r₁ = Except.error e₁ →
      MemoryRegion.slice s₂ r₂ = Except.error e₂ → e₁ = e₂) := by
  refine ⟨fun _ _ e _ => ?_, fun _ _ e _ => ?_, fun _ _ _ _ e₁ e₂ _ _ => ?_⟩
  · cases e
    rfl
  · cases e
    rfl
  · cases e₁
    cases e₂
    rfl

/-- Witness for the amended C9: two concrete distinct failures of `slice`
have equal error values. -/
theorem errors_returned_as_unit_witness :
    MemoryRegion.slice sampleRoot ⟨5, 5⟩ = Except.error () ∧
    MemoryRegion.slice sampleRootAfter ⟨0, 64⟩ = Except.error () ∧
    (() : Unit) = () := by
  exact ⟨rfl, rfl, errors_returned_as_unit.2.2 sampleRoot sampleRootAfter
    ⟨5, 5⟩ ⟨0, 64⟩ () () rfl rfl⟩

/-- C10: `alloc` with a zero-size layout always fails, whatever the region
state: the first-fit scan proposes the empty range at its cursor (offset 0)
and `slice` rejects every empty range with `range.start >= range.end`. -/
theorem alloc_zero_size_fails (self : MemoryRegion) (align : Nat) :
    allocRange self.length 0 self.sub = Except.ok ⟨0, 0⟩ ∧
    MemoryRegion.alloc self (Layout.mk 0 align) = Except.error () := by
  have hAR : allocRange self.length 0 self.sub = Except.ok ⟨0, 0⟩ := by
    cases hs : self.sub with
    | nil => simp [allocRange, allocLoop]
    | cons r rest => simp [allocRange, allocLoop]
  refine ⟨hAR, ?_⟩
  simp [MemoryRegion.alloc, hAR, MemoryRegion.slice, sliceListRun]

/-- Witness for C1: a concrete run — successful slice of `[0, 64)`, a
rejected overlapping slice, a 32-byte alloc landing at `[64, 96)`, and the
destruction of the first child — yields the list `[[64, 96)]`, whose member
satisfies the bounds facts via the invariant theorem. -/
theorem occupied_ranges_invariant_witness :
    (⟨64, 96⟩ : RangeN) ∈ runOps 128
      [Op.slice ⟨0, 64⟩, Op.slice ⟨0, 32⟩, Op.alloc ⟨32, 8⟩, Op.destroy ⟨0, 64⟩] ∧
    (0 ≤ (⟨64, 96⟩ : RangeN).start ∧ (⟨64, 96⟩ : RangeN).start < (⟨64, 96⟩ : RangeN).stop ∧
      (⟨64, 96⟩ : RangeN).stop ≤ 128) := by
  have hmem : (⟨64, 96⟩ : RangeN) ∈ runOps 128
      [Op.slice ⟨0, 64⟩, Op.slice ⟨0, 32⟩, Op.alloc ⟨32, 8⟩, Op.destroy ⟨0, 64⟩] := by
    decide
  exact ⟨hmem, (occupied_ranges_invariant 128
    [Op.slice ⟨0, 64⟩, Op.slice ⟨0, 32⟩, Op.alloc ⟨32, 8⟩, Op.destroy ⟨0, 64⟩]).1
    ⟨64, 96⟩ hmem⟩

/-- Witness for C3: the overlapping request `[0, 64)` against a region
already bookkeeping `[0, 64)` fails and leaves the list unchanged. -/
theorem slice_failure_frame_witness :
    (sliceListRun 128 [⟨0, 64⟩] ⟨0, 64⟩).1 = Except.error () ∧
    (sliceListRun 128 [⟨0, 64⟩] ⟨0, 64⟩).2 = [⟨0, 64⟩] := by
  have h := slice_failure_frame 128 [⟨0, 64⟩] ⟨0, 64⟩
  have herr : (sliceListRun 128 [⟨0, 64⟩] ⟨0, 64⟩).1 = Except.error () :=
    h.1.mpr (Or.inr (Or.inr ⟨⟨0, 64⟩, by decide, by decide⟩))
  exact ⟨herr, h.2.1 herr⟩

end AsyncRdma
